import Mathlib

/-!
Shallow embedding of the grid-line-detection pipeline of
`src/grid_line_detector.py` and of the per-page OCR loop of
`src/cuda_ocr.py` from the `woo_data_playground` repository.

Conventions of the embedding:
* a processed (edge) image is a list of rows, each row a list of natural
  pixel values (`cv2.Canny` output is 0/255); `numpy` arrays are
  rectangular, which appears as an explicit `Rectangular` hypothesis where
  a proof needs it;
* `float` likelihood arithmetic is modelled exactly over `ℚ` (all values
  are ratios of small integers);
* `int(np.mean(group))` on nonnegative integers truncates toward zero,
  which is floor division, modelled by `ℕ` division `sum / length`;
* `cv2.Canny` itself is third-party code (a declared non-goal of the
  spec), so the pipeline is embedded from the edge map onward: the edge
  map is the input of `find_grid_lines_on_edges`.
-/

/-- Number of columns of the image, i.e. `shape[1]` of the rectangular
`numpy` array. -/
def ncols (img : List (List ℕ)) : ℕ := (img.headD []).length

/-- The image is rectangular: every row has length `ncols img`
(always true of a `numpy` 2-D array). -/
abbrev Rectangular (img : List (List ℕ)) : Prop :=
  ∀ r ∈ img, r.length = ncols img

/-- Axis selector of `estimate_line_likelihood`.  The source uses the
strings "x" and "y" (any string other than "x" behaves as "y"). -/
inductive Axis
| x
| y
deriving DecidableEq, Repr

/-- Model of `np.max` on an array of nonnegative rationals (all
likelihood values are nonnegative, so the 0 seed is neutral). -/
def listMax (l : List ℚ) : ℚ := l.foldr max 0

/-- The pre-normalization loop of `estimate_line_likelihood`:
`line_likelihood[i] = np.sum(line_pixels != 0) / shape[1 - axis_index]`. -/
def lineFrac (img : List (List ℕ)) : Axis → List ℚ
  | Axis.x =>
      (List.range (ncols img)).map
        (fun i => ((img.filter (fun r => r.getD i 0 ≠ 0)).length : ℚ) /
          (img.length : ℚ))
  | Axis.y =>
      img.map (fun r => ((r.filter (fun v => v ≠ 0)).length : ℚ) /
        ((ncols img : ℕ) : ℚ))

/-- `estimate_line_likelihood(processed_image, axis)`: the per-coordinate
edge fraction, divided by its maximum unless that maximum is zero. -/
def estimate_line_likelihood (img : List (List ℕ)) (axis : Axis) : List ℚ :=
  let raw := lineFrac img axis
  if listMax raw ≠ 0 then raw.map (fun v => v / listMax raw) else raw

/-- `int(np.mean(current_group))` for a group of nonnegative integers:
floor of the arithmetic mean. -/
def groupMean (g : List ℕ) : ℕ := g.sum / g.length

/-- The grouping loop of `refine_lines`.  `group` is the current group in
reverse order of collection, so its head is `current_group[-1]`, the most
recently appended (and, on sorted input, largest) member.  A new group
starts when `line - current_group[-1] > min_distance`. -/
def refineAux (d : ℕ) (group : List ℕ) : List ℕ → List ℕ
  | [] => [groupMean group]
  | line :: rest =>
      if d < line - group.headD 0 then
        groupMean group :: refineAux d [line] rest
      else
        refineAux d (line :: group) rest

/-- First iteration of the `refine_lines` loop: with `current_group`
empty the `if` branch is taken, nothing is emitted, and the group becomes
`[line]`; an empty input yields an empty output. -/
def refineStart (d : ℕ) : List ℕ → List ℕ
  | [] => []
  | l :: rest => refineAux d [l] rest

/-- `refine_lines(lines, min_distance)` (source default
`min_distance=10`): sort, group runs of coordinates whose successive gaps
are at most `min_distance`, and emit each group's truncated mean. -/
def refine_lines (lines : List ℕ) (min_distance : ℕ) : List ℕ :=
  refineStart min_distance (List.insertionSort (fun a b => a ≤ b) lines)

/-- Stable insertion for a descending sort by key: an element moves past
strictly greater keys only, so ties keep their original order, as with
Python's stable `list.sort(key=..., reverse=True)`. -/
def stableInsertDesc (key : ℕ → ℚ) (a : ℕ) : List ℕ → List ℕ
  | [] => [a]
  | b :: l => if key a < key b then b :: stableInsertDesc key a l
      else a :: b :: l

/-- Stable descending sort by key, modelling
`lines.sort(key=lambda x: likelihood[x], reverse=True)`. -/
def sortByKeyDesc (key : ℕ → ℚ) : List ℕ → List ℕ
  | [] => []
  | a :: l => stableInsertDesc key a (sortByKeyDesc key l)

/-- The selection comprehension of `find_grid_lines_on_image`:
`[x for x, likelihood in enumerate(ll) if likelihood >= cutoff]`. -/
def selected_lines (ll : List ℚ) (cutoff : ℚ) : List ℕ :=
  (List.range ll.length).filter (fun i => cutoff ≤ ll.getD i 0)

/-- `find_grid_lines_on_image(image, cutoff_fraction, min_distance,
max_columns, max_rows)`, embedded from the Canny edge map onward (source
defaults: `cutoff_fraction=0.6`, `min_distance=10`, caps `None`).

Faithful to the source: the candidate lists are sorted by likelihood in
descending order and returned as-is when no cap is given; only when a cap
is given is the corresponding refined (merged, ascending) list used, cut
to its first `max_columns` (resp. `max_rows`) entries. -/
def find_grid_lines_on_edges (edges : List (List ℕ)) (cutoff_fraction : ℚ)
    (min_distance : ℕ) (max_columns max_rows : Option ℕ) :
    List ℕ × List ℕ :=
  let vll := estimate_line_likelihood edges Axis.x
  let hll := estimate_line_likelihood edges Axis.y
  let vertical_cutoff := listMax vll * cutoff_fraction
  let horizontal_cutoff := listMax hll * cutoff_fraction
  let vertical_lines :=
    sortByKeyDesc (fun i => vll.getD i 0) (selected_lines vll vertical_cutoff)
  let horizontal_lines :=
    sortByKeyDesc (fun i => hll.getD i 0)
      (selected_lines hll horizontal_cutoff)
  let vertical_refined :=
    refine_lines (selected_lines vll vertical_cutoff) min_distance
  let horizontal_refined :=
    refine_lines (selected_lines hll horizontal_cutoff) min_distance
  ((match max_columns with
    | some k => vertical_refined.take k
    | none => vertical_lines),
   (match max_rows with
    | some k => horizontal_refined.take k
    | none => horizontal_lines))

/-- The page separator `"\n\n"` joining per-page OCR texts in
`process_pdf`. -/
def pageSep : String := "\n\n"

/-- The per-page loop of `process_pdf` in `cuda_ocr.py`, with the
third-party OCR call modelled by its outcome: for each page, either the
recognized text (`Except.ok`) or a raised exception (`Except.error`).  A
failure is caught, a message is printed (I/O, outside the model), and the
loop continues; only successful texts are appended to `full_text`, and
the result is their `"\n\n"`-join. -/
def pdfStep (full_text : List String) (outcome : Except String String) :
    List String :=
  match outcome with
  | Except.ok page_text => full_text ++ [page_text]
  | Except.error _ => full_text

/-- See `pdfStep` for the loop body. -/
def process_pdf (ocrOutcomes : List (Except String String)) : String :=
  String.intercalate pageSep (ocrOutcomes.foldl pdfStep [])

/-- A 5 × 6 edge map: column 0 has edge pixels in four of five rows
(likelihood 4/5 after normalization), column 5 in all five rows
(likelihood 1); all other columns are empty. -/
def imgA : List (List ℕ) :=
  [[1, 0, 0, 0, 0, 1],
   [1, 0, 0, 0, 0, 1],
   [1, 0, 0, 0, 0, 1],
   [1, 0, 0, 0, 0, 1],
   [0, 0, 0, 0, 0, 1]]

/-- A 5 × 16 edge map: column 0 has edge pixels in four of five rows
(likelihood 4/5), column 15 in all five rows (likelihood 1); the two
columns are farther apart than the default `min_distance`. -/
def imgB : List (List ℕ) :=
  [[1, 0, 0, 0, 0, 0, 0, 0, 0, 0, 0, 0, 0, 0, 0, 1],
   [1, 0, 0, 0, 0, 0, 0, 0, 0, 0, 0, 0, 0, 0, 0, 1],
   [1, 0, 0, 0, 0, 0, 0, 0, 0, 0, 0, 0, 0, 0, 0, 1],
   [1, 0, 0, 0, 0, 0, 0, 0, 0, 0, 0, 0, 0, 0, 0, 1],
   [0, 0, 0, 0, 0, 0, 0, 0, 0, 0, 0, 0, 0, 0, 0, 1]]

/-- The `vertical_refined` intermediate of `find_grid_lines_on_image`:
the refined (merged, ascending) above-cutoff column coordinates. -/
def vertical_refined_of (edges : List (List ℕ)) (c : ℚ) (d : ℕ) :
    List ℕ :=
  refine_lines (selected_lines (estimate_line_likelihood edges Axis.x)
    (listMax (estimate_line_likelihood edges Axis.x) * c)) d

/-- The `horizontal_refined` intermediate of `find_grid_lines_on_image`:
the refined (merged, ascending) above-cutoff row coordinates. -/
def horizontal_refined_of (edges : List (List ℕ)) (c : ℚ) (d : ℕ) :
    List ℕ :=
  refine_lines (selected_lines (estimate_line_likelihood edges Axis.y)
    (listMax (estimate_line_likelihood edges Axis.y) * c)) d

/-- A 2 × 2 edge map with no edge pixels at all. -/
def imgZero : List (List ℕ) := [[0, 0], [0, 0]]

/-- A 2 × 2 edge map with a single edge pixel. -/
def imgOne : List (List ℕ) := [[1, 0], [0, 0]]

/-! ### Arithmetic facts about group means -/

/-- A lower bound on all members of a group bounds its sum from below. -/
theorem length_mul_le_sum {g : List ℕ} {a : ℕ} (h : ∀ y ∈ g, a ≤ y) :
    g.length * a ≤ g.sum := by
  induction g with
  | nil => simp
  | cons b t ih =>
      have hb := h b (List.mem_cons_self b t)
      have ht := ih fun y hy => h y (List.mem_cons_of_mem _ hy)
      simp only [List.length_cons, List.sum_cons]
      have : (t.length + 1) * a = t.length * a + a := by ring
      omega

/-- An upper bound on all members of a group bounds its sum from above. -/
theorem sum_le_length_mul {g : List ℕ} {b : ℕ} (h : ∀ y ∈ g, y ≤ b) :
    g.sum ≤ g.length * b := by
  induction g with
  | nil => simp
  | cons c t ih =>
      have hc := h c (List.mem_cons_self c t)
      have ht := ih fun y hy => h y (List.mem_cons_of_mem _ hy)
      simp only [List.length_cons, List.sum_cons]
      have : (t.length + 1) * b = t.length * b + b := by ring
      omega

/-- The truncated mean of a nonempty group is at least any common lower
bound of its members. -/
theorem le_groupMean {g : List ℕ} {a : ℕ} (hg : g ≠ [])
    (h : ∀ y ∈ g, a ≤ y) : a ≤ groupMean g := by
  have hlen : 0 < g.length := List.length_pos.mpr hg
  rw [groupMean, Nat.le_div_iff_mul_le hlen, Nat.mul_comm]
  exact length_mul_le_sum h

/-- The truncated mean of a group is at most any common upper bound of
its members. -/
theorem groupMean_le {g : List ℕ} {b : ℕ} (h : ∀ y ∈ g, y ≤ b) :
    groupMean g ≤ b :=
  Nat.div_le_of_le_mul (sum_le_length_mul h)

/-- Some member of a nonempty group is at most the group's mean. -/
theorem exists_le_groupMean {g : List ℕ} (hg : g ≠ []) :
    ∃ a ∈ g, a ≤ groupMean g := by
  by_contra hcon
  push_neg at hcon
  have : groupMean g + 1 ≤ groupMean g :=
    le_groupMean hg fun y hy => hcon y hy
  omega

/-- Some member of a nonempty group is at least the group's mean. -/
theorem exists_groupMean_le {g : List ℕ} (hg : g ≠ []) :
    ∃ b ∈ g, groupMean g ≤ b := by
  by_contra hcon
  push_neg at hcon
  rcases g with _ | ⟨c, t⟩
  · exact hg rfl
  · have hc := hcon c (List.mem_cons_self c t)
    have : groupMean (c :: t) ≤ groupMean (c :: t) - 1 :=
      groupMean_le fun y hy => by have := hcon y hy; omega
    omega

/-! ### Structure of the `refine_lines` grouping loop -/

/-- Every output of the grouping loop is bracketed by input members:
each emitted mean has some processed coordinate below it and some above
it. -/
theorem refineAux_bounds (d : ℕ) :
    ∀ (rest group : List ℕ), group ≠ [] →
      ∀ x ∈ refineAux d group rest,
        (∃ a ∈ group ++ rest, a ≤ x) ∧ ∃ b ∈ group ++ rest, x ≤ b := by
  intro rest
  induction rest with
  | nil =>
      intro group hg x hx
      simp only [refineAux, List.mem_singleton] at hx
      subst hx
      obtain ⟨a, ha, hale⟩ := exists_le_groupMean hg
      obtain ⟨b, hb, hble⟩ := exists_groupMean_le hg
      exact ⟨⟨a, by simp [ha], hale⟩, ⟨b, by simp [hb], hble⟩⟩
  | cons line rest ih =>
      intro group hg x hx
      simp only [refineAux] at hx
      by_cases hcond : d < line - group.headD 0
      · rw [if_pos hcond] at hx
        rcases List.mem_cons.mp hx with rfl | hx'
        · obtain ⟨a, ha, hale⟩ := exists_le_groupMean hg
          obtain ⟨b, hb, hble⟩ := exists_groupMean_le hg
          exact ⟨⟨a, by simp [ha], hale⟩, ⟨b, by simp [hb], hble⟩⟩
        · obtain ⟨⟨a, ha, hale⟩, b, hb, hble⟩ := ih [line] (by simp) x hx'
          constructor
          · refine ⟨a, ?_, hale⟩
            simp only [List.mem_append, List.mem_cons,
              List.mem_singleton] at ha ⊢
            tauto
          · refine ⟨b, ?_, hble⟩
            simp only [List.mem_append, List.mem_cons,
              List.mem_singleton] at hb ⊢
            tauto
      · rw [if_neg hcond] at hx
        obtain ⟨⟨a, ha, hale⟩, b, hb, hble⟩ := ih (line :: group) (by simp) x hx
        constructor
        · refine ⟨a, ?_, hale⟩
          simp only [List.mem_append, List.mem_cons] at ha ⊢
          tauto
        · refine ⟨b, ?_, hble⟩
          simp only [List.mem_append, List.mem_cons] at hb ⊢
          tauto

/-- A common lower bound of the pending group and of the remaining input
bounds the first emitted mean from below. -/
theorem refineAux_head_ge (d b : ℕ) :
    ∀ (rest group : List ℕ), group ≠ [] →
      (∀ y ∈ group, b ≤ y) → (∀ y ∈ rest, b ≤ y) →
      ∀ f, (refineAux d group rest).head? = some f → b ≤ f := by
  intro rest
  induction rest with
  | nil =>
      intro group hg hgrp _ f hf
      simp only [refineAux, List.head?_cons, Option.some.injEq] at hf
      subst hf
      exact le_groupMean hg hgrp
  | cons line rest ih =>
      intro group hg hgrp hrest f hf
      simp only [refineAux] at hf
      by_cases hcond : d < line - group.headD 0
      · rw [if_pos hcond] at hf
        simp only [List.head?_cons, Option.some.injEq] at hf
        subst hf
        exact le_groupMean hg hgrp
      · rw [if_neg hcond] at hf
        refine ih (line :: group) (by simp) ?_
          (fun y hy => hrest y (List.mem_cons_of_mem _ hy)) f hf
        intro y hy
        rcases List.mem_cons.mp hy with rfl | hy'
        · exact hrest y (List.mem_cons_self _ _)
        · exact hgrp y hy'

/-- On sorted input, successive outputs of the grouping loop are more
than `d` apart.  Invariants: the pending (reversed) group has its head as
maximum, the remaining input is sorted and entirely at or above that
head. -/
theorem refineAux_chain (d : ℕ) :
    ∀ (rest group : List ℕ), group ≠ [] →
      (∀ y ∈ group, y ≤ group.headD 0) →
      List.Sorted (fun a b => a ≤ b) rest →
      (∀ y ∈ rest, group.headD 0 ≤ y) →
      List.Chain' (fun a b => a + d < b) (refineAux d group rest) := by
  intro rest
  induction rest with
  | nil =>
      intro group _ _ _ _
      simp only [refineAux]
      exact List.chain'_singleton _
  | cons line rest ih =>
      intro group hg hmax hsort hconn
      have hsort' : List.Sorted (fun a b => a ≤ b) rest :=
        (List.sorted_cons.mp hsort).2
      have hline_le : ∀ y ∈ rest, line ≤ y :=
        (List.sorted_cons.mp hsort).1
      simp only [refineAux]
      by_cases hcond : d < line - group.headD 0
      · rw [if_pos hcond]
        refine List.chain'_cons'.mpr ⟨?_, ih [line] (by simp) (by simp)
          hsort' (by simpa using hline_le)⟩
        intro f hf
        rw [Option.mem_def] at hf
        have hbf : line ≤ f :=
          refineAux_head_ge d line rest [line] (by simp) (by simp)
            hline_le f hf
        have hmean : groupMean group ≤ group.headD 0 := groupMean_le hmax
        omega
      · rw [if_neg hcond]
        refine ih (line :: group) (by simp) ?_ hsort' ?_
        · intro y hy
          rcases List.mem_cons.mp hy with rfl | hy'
          · simp
          · have h1 := hmax y hy'
            have h2 := hconn line (List.mem_cons_self _ _)
            simp only [List.headD_cons]
            omega
        · intro y hy
          simp only [List.headD_cons]
          exact hline_le y hy

/-- The refined output forms a chain whose successive members are more
than `min_distance` apart. -/
theorem refine_lines_chain (L : List ℕ) (d : ℕ) :
    List.Chain' (fun a b => a + d < b) (refine_lines L d) := by
  unfold refine_lines
  rcases hs : List.insertionSort (fun a b => a ≤ b) L with _ | ⟨l, rest⟩
  · simp [refineStart]
  · have hsorted : List.Sorted (fun a b => a ≤ b) (l :: rest) := by
      rw [← hs]
      exact List.sorted_insertionSort _ L
    simp only [refineStart]
    exact refineAux_chain d rest [l] (by simp) (by simp)
      (List.sorted_cons.mp hsorted).2
      (by simpa using (List.sorted_cons.mp hsorted).1)

/-- Pairwise separation of the refined output, in list order. -/
theorem refine_lines_pairwise (L : List ℕ) (d : ℕ) :
    List.Pairwise (fun a b => a + d < b) (refine_lines L d) := by
  haveI : IsTrans ℕ (fun a b => a + d < b) :=
    ⟨fun a b c h1 h2 => by omega⟩
  exact List.chain'_iff_pairwise.mp (refine_lines_chain L d)

/-- Pairwise facts transfer to unordered pairs of distinct members. -/
theorem pairwise_ne_or {R : ℕ → ℕ → Prop} :
    ∀ {l : List ℕ}, List.Pairwise R l →
      ∀ x ∈ l, ∀ y ∈ l, x ≠ y → R x y ∨ R y x := by
  intro l hp
  induction hp with
  | nil => intro x hx; simp at hx
  | cons hhead _ ih =>
      intro x hx y hy hxy
      rcases List.mem_cons.mp hx with rfl | hx' <;>
        rcases List.mem_cons.mp hy with rfl | hy'
      · exact absurd rfl hxy
      · exact Or.inl (hhead y hy')
      · exact Or.inr (hhead x hx')
      · exact ih x hx' y hy' hxy

/-- Claim C1: for every list of raw coordinates and every minimum
distance `d ≥ 0`, no two lines in the output of
`refine_lines(lines, d)` are within `d` of each other: every pair of
distinct output values differs by more than `d`. -/
theorem claim_C1_refine_lines_separation (L : List ℕ) (d : ℕ) :
    ∀ x ∈ refine_lines L d, ∀ y ∈ refine_lines L d, x ≠ y →
      x + d < y ∨ y + d < x :=
  pairwise_ne_or (refine_lines_pairwise L d)

/-- Witness for C1 at the concrete input `[0, 5, 20]`, `d = 10`:
the refined output `[2, 20]` holds distinct members `2` and `20`, and
they differ by more than `10`. -/
theorem claim_C1_witness :
    2 ∈ refine_lines [0, 5, 20] 10 ∧ 20 ∈ refine_lines [0, 5, 20] 10 ∧
      (2 + 10 < 20 ∨ 20 + 10 < 2) :=
  ⟨by decide, by decide,
    claim_C1_refine_lines_separation [0, 5, 20] 10 2 (by decide) 20
      (by decide) (by decide)⟩

/-- Claim C2: for every nonempty list of raw coordinates with minimum
`lo` and maximum `hi` and every minimum distance `d ≥ 0`, every value in
the output of `refine_lines(lines, d)` lies between `lo` and `hi`
inclusive. -/
theorem claim_C2_refine_lines_range (L : List ℕ) (d lo hi : ℕ)
    (_hlo_mem : lo ∈ L) (hlo : ∀ y ∈ L, lo ≤ y)
    (_hhi_mem : hi ∈ L) (hhi : ∀ y ∈ L, y ≤ hi) :
    ∀ x ∈ refine_lines L d, lo ≤ x ∧ x ≤ hi := by
  intro x hx
  unfold refine_lines at hx
  rcases hs : List.insertionSort (fun a b => a ≤ b) L with _ | ⟨l, rest⟩
  · rw [hs] at hx
    simp [refineStart] at hx
  · rw [hs] at hx
    simp only [refineStart] at hx
    have hmemL : ∀ a, a ∈ l :: rest → a ∈ L := by
      intro a ha
      have hperm := List.perm_insertionSort (fun a b => a ≤ b) L
      rw [hs] at hperm
      exact hperm.mem_iff.mp ha
    obtain ⟨⟨a, ha, hale⟩, b, hb, hble⟩ :=
      refineAux_bounds d rest [l] (by simp) x hx
    have haL : a ∈ L := hmemL a (by simpa using ha)
    have hbL : b ∈ L := hmemL b (by simpa using hb)
    exact ⟨le_trans (hlo a haL) hale, le_trans hble (hhi b hbL)⟩

/-- Witness for C2 at the concrete input `[1, 5, 20]`, `d = 10`:
the refined output is `[3, 20]`, the member `3` is inside the input
range `[1, 20]`. -/
theorem claim_C2_witness :
    3 ∈ refine_lines [1, 5, 20] 10 ∧ 1 ≤ 3 ∧ 3 ≤ 20 :=
  ⟨by decide,
    claim_C2_refine_lines_range [1, 5, 20] 10 1 20 (by decide) (by decide)
      (by decide) (by decide) 3 (by decide)⟩

/-- On input already separated by more than `d`, each element opens (and
closes) its own group, so the loop returns the input unchanged. -/
theorem refineAux_of_chain (d : ℕ) :
    ∀ (rest : List ℕ) (a : ℕ),
      List.Chain' (fun p q => p + d < q) (a :: rest) →
      refineAux d [a] rest = a :: rest := by
  intro rest
  induction rest with
  | nil =>
      intro a _
      simp [refineAux, groupMean]
  | cons b rest ih =>
      intro a hchain
      have hab : a + d < b := (List.chain'_cons.mp hchain).1
      simp only [refineAux, List.headD_cons]
      rw [if_pos (by omega : d < b - a)]
      rw [ih b (List.chain'_cons.mp hchain).2]
      simp [groupMean]

/-- `refineStart` is the identity on input separated by more than `d`. -/
theorem refineStart_of_chain (d : ℕ) (M : List ℕ)
    (h : List.Chain' (fun p q => p + d < q) M) :
    refineStart d M = M := by
  rcases M with _ | ⟨a, rest⟩
  · rfl
  · simp only [refineStart]
    exact refineAux_of_chain d rest a h

/-- Claim C10: `refine_lines` is idempotent: refining an already refined
list with the same minimum distance returns it unchanged. -/
theorem claim_C10_refine_lines_idempotent (L : List ℕ) (d : ℕ) :
    refine_lines (refine_lines L d) d = refine_lines L d := by
  have hchain := refine_lines_chain L d
  have hsorted : List.Sorted (fun a b => a ≤ b) (refine_lines L d) :=
    (refine_lines_pairwise L d).imp fun h => by omega
  conv_lhs => rw [refine_lines]
  rw [List.Sorted.insertionSort_eq hsorted]
  exact refineStart_of_chain d _ hchain

/-! ### Likelihood estimation: normalization and value bounds -/

/-- A list whose members are all zero yields zero under any `getD`
lookup (out-of-range lookups return the default 0). -/
theorem getD_eq_zero {r : List ℕ} (h : ∀ v ∈ r, v = 0) (i : ℕ) :
    r.getD i 0 = 0 := by
  induction r generalizing i with
  | nil => simp
  | cons a t ih =>
      cases i with
      | zero => simpa using h a (List.mem_cons_self a t)
      | succ n =>
          simpa using ih (fun v hv => h v (List.mem_cons_of_mem _ hv)) n

/-- On an image with no edge pixels every raw line fraction is zero. -/
theorem lineFrac_all_zero (img : List (List ℕ)) (ax : Axis)
    (h : ∀ r ∈ img, ∀ v ∈ r, v = 0) :
    ∀ v ∈ lineFrac img ax, v = 0 := by
  cases ax with
  | x =>
      intro v hv
      simp only [lineFrac, List.mem_map, List.mem_range] at hv
      obtain ⟨i, _, rfl⟩ := hv
      have hfil : img.filter (fun r => decide (r.getD i 0 ≠ 0)) = [] := by
        rw [List.filter_eq_nil_iff]
        intro r hr
        simp only [getD_eq_zero (h r hr)]
        simp
      rw [hfil]
      simp
  | y =>
      intro v hv
      simp only [lineFrac, List.mem_map] at hv
      obtain ⟨r, hr, rfl⟩ := hv
      have hfil : r.filter (fun v => decide (v ≠ 0)) = [] := by
        rw [List.filter_eq_nil_iff]
        intro w hw
        simp [h r hr w hw]
      rw [hfil]
      simp

/-- Unfolding equation for `listMax` on a cons cell. -/
theorem listMax_cons (a : ℚ) (t : List ℚ) :
    listMax (a :: t) = max a (listMax t) := rfl

/-- The maximum of an all-zero list is zero. -/
theorem listMax_eq_zero {l : List ℚ} (h : ∀ v ∈ l, v = 0) :
    listMax l = 0 := by
  induction l with
  | nil => rfl
  | cons a t ih =>
      have ha := h a (List.mem_cons_self a t)
      have ht := ih fun v hv => h v (List.mem_cons_of_mem _ hv)
      simp only [listMax, List.foldr_cons] at ht ⊢
      simp [ha, ht]

/-- `listMax` is nonnegative (its seed is 0). -/
theorem listMax_nonneg (l : List ℚ) : 0 ≤ listMax l := by
  induction l with
  | nil => simp [listMax]
  | cons a t ih =>
      simp only [listMax, List.foldr_cons] at ih ⊢
      exact le_trans ih (le_max_right a _)

/-- Every member is at most `listMax`. -/
theorem le_listMax_of_mem {l : List ℚ} {x : ℚ} (h : x ∈ l) :
    x ≤ listMax l := by
  induction l with
  | nil => simp at h
  | cons a t ih =>
      simp only [listMax, List.foldr_cons]
      rcases List.mem_cons.mp h with rfl | h'
      · exact le_max_left x _
      · exact le_trans (ih h') (le_max_right a _)

/-- `listMax` is at most any nonnegative common upper bound. -/
theorem listMax_le {l : List ℚ} {b : ℚ} (hb : 0 ≤ b)
    (h : ∀ x ∈ l, x ≤ b) : listMax l ≤ b := by
  induction l with
  | nil => simpa [listMax] using hb
  | cons a t ih =>
      simp only [listMax, List.foldr_cons]
      exact max_le (h a (List.mem_cons_self a t))
        (ih fun x hx => h x (List.mem_cons_of_mem _ hx))

/-- A nonzero `listMax` is attained by some member. -/
theorem listMax_mem_of_ne_zero {l : List ℚ} (h : listMax l ≠ 0) :
    listMax l ∈ l := by
  induction l with
  | nil => simp [listMax] at h
  | cons a t ih =>
      rw [listMax_cons] at h ⊢
      rcases le_total a (listMax t) with hle | hge
      · rw [max_eq_right hle] at h ⊢
        exact List.mem_cons_of_mem a (ih h)
      · rw [max_eq_left hge]
        exact List.mem_cons_self a t

/-- Raw line fractions are nonnegative. -/
theorem lineFrac_nonneg (img : List (List ℕ)) (ax : Axis) :
    ∀ v ∈ lineFrac img ax, 0 ≤ v := by
  cases ax with
  | x =>
      intro v hv
      simp only [lineFrac, List.mem_map, List.mem_range] at hv
      obtain ⟨i, _, rfl⟩ := hv
      positivity
  | y =>
      intro v hv
      simp only [lineFrac, List.mem_map] at hv
      obtain ⟨r, _, rfl⟩ := hv
      positivity

/-- On a nonempty rectangular image, each raw line fraction is at most
one: at most every pixel of the column (resp. row) is an edge pixel. -/
theorem lineFrac_le_one (img : List (List ℕ)) (ax : Axis)
    (hrect : Rectangular img) (himg : img ≠ []) (hc : ncols img ≠ 0) :
    ∀ v ∈ lineFrac img ax, v ≤ 1 := by
  cases ax with
  | x =>
      intro v hv
      simp only [lineFrac, List.mem_map, List.mem_range] at hv
      obtain ⟨i, _, rfl⟩ := hv
      have hlen : 0 < img.length := List.length_pos.mpr himg
      rw [div_le_one (by exact_mod_cast hlen)]
      exact_mod_cast List.length_filter_le _ img
  | y =>
      intro v hv
      simp only [lineFrac, List.mem_map] at hv
      obtain ⟨r, hr, rfl⟩ := hv
      have hcpos : 0 < ncols img := Nat.pos_of_ne_zero hc
      rw [div_le_one (by exact_mod_cast hcpos)]
      have hfl : (r.filter (fun v => decide (v ≠ 0))).length ≤ r.length :=
        List.length_filter_le _ r
      rw [hrect r hr] at hfl
      exact_mod_cast hfl

/-- Claim C7: an image whose edge map has no edge pixels yields an
all-zero likelihood array of the expected length: the division by the
maximum is skipped because that maximum is zero, and the function still
returns a (zero) array. -/
theorem claim_C7_no_edges_zero_likelihood (img : List (List ℕ)) (ax : Axis)
    (h : ∀ r ∈ img, ∀ v ∈ r, v = 0) :
    (∀ v ∈ estimate_line_likelihood img ax, v = 0) ∧
    (estimate_line_likelihood img ax).length =
      (if ax = Axis.x then ncols img else img.length) := by
  have hraw := lineFrac_all_zero img ax h
  have hmax : listMax (lineFrac img ax) = 0 := listMax_eq_zero hraw
  have hres : estimate_line_likelihood img ax = lineFrac img ax := by
    simp [estimate_line_likelihood, hmax]
  constructor
  · rw [hres]
    exact hraw
  · rw [hres]
    cases ax <;> simp [lineFrac]

/-- Witness for C7 on the concrete 2 × 2 all-zero edge map. -/
theorem claim_C7_witness :
    (∀ v ∈ estimate_line_likelihood imgZero Axis.x, v = 0) ∧
    (estimate_line_likelihood imgZero Axis.x).length =
      (if Axis.x = Axis.x then ncols imgZero else imgZero.length) :=
  claim_C7_no_edges_zero_likelihood imgZero Axis.x (by decide)

/-- Claim C8: on a nonempty rectangular edge image, every entry of the
likelihood array lies in `[0, 1]`, and when the maximum raw fraction is
nonzero the largest normalized entry equals exactly `1`. -/
theorem claim_C8_likelihood_unit_interval (img : List (List ℕ)) (ax : Axis)
    (hrect : Rectangular img) (himg : img ≠ []) (hc : ncols img ≠ 0) :
    (∀ v ∈ estimate_line_likelihood img ax, 0 ≤ v ∧ v ≤ 1) ∧
    (listMax (lineFrac img ax) ≠ 0 →
      listMax (estimate_line_likelihood img ax) = 1) := by
  have hnn := lineFrac_nonneg img ax
  have hle1 := lineFrac_le_one img ax hrect himg hc
  by_cases hmax : listMax (lineFrac img ax) = 0
  · have hres : estimate_line_likelihood img ax = lineFrac img ax := by
      simp [estimate_line_likelihood, hmax]
    rw [hres]
    exact ⟨fun v hv => ⟨hnn v hv, hle1 v hv⟩, fun hne => absurd hmax hne⟩
  · have hpos : 0 < listMax (lineFrac img ax) :=
      lt_of_le_of_ne (listMax_nonneg _) (Ne.symm hmax)
    have hres : estimate_line_likelihood img ax =
        (lineFrac img ax).map
          (fun v => v / listMax (lineFrac img ax)) := by
      simp [estimate_line_likelihood, hmax]
    have hub : ∀ v ∈ estimate_line_likelihood img ax, v ≤ 1 := by
      intro v hv
      rw [hres] at hv
      simp only [List.mem_map] at hv
      obtain ⟨w, hw, rfl⟩ := hv
      rw [div_le_one hpos]
      exact le_listMax_of_mem hw
    constructor
    · intro v hv
      refine ⟨?_, hub v hv⟩
      rw [hres] at hv
      simp only [List.mem_map] at hv
      obtain ⟨w, hw, rfl⟩ := hv
      exact div_nonneg (hnn w hw) (le_of_lt hpos)
    · intro _
      have h1mem : (1 : ℚ) ∈ estimate_line_likelihood img ax := by
        rw [hres]
        exact List.mem_map.mpr ⟨listMax (lineFrac img ax),
          listMax_mem_of_ne_zero hmax, div_self hmax⟩
      exact le_antisymm (listMax_le zero_le_one hub)
        (le_listMax_of_mem h1mem)

/-- Witness for C8 on the concrete 2 × 2 edge map with one edge pixel. -/
theorem claim_C8_witness :
    (∀ v ∈ estimate_line_likelihood imgOne Axis.x, 0 ≤ v ∧ v ≤ 1) ∧
    (listMax (lineFrac imgOne Axis.x) ≠ 0 →
      listMax (estimate_line_likelihood imgOne Axis.x) = 1) :=
  claim_C8_likelihood_unit_interval imgOne Axis.x (by decide) (by decide)
    (by decide)

/-! ### `find_grid_lines_on_image`: returned line lists -/

/-- Claim C3, failing evaluation: with default arguments (cutoff fraction
3/5, minimum distance 10, no caps), the vertical result on `imgA` is
`[5, 0]` — the raw above-cutoff columns ordered by descending likelihood —
which is not an ascending sequence.  The function's own docstring says it
"detects and refines" the grid line positions, but the refined ascending
list is only returned when a cap is given. -/
theorem claim_C3_failing_default_not_sorted :
    (find_grid_lines_on_edges imgA (3 / 5) 10 none none).fst = [5, 0] ∧
    ¬ List.Sorted (fun a b => a ≤ b)
      (find_grid_lines_on_edges imgA (3 / 5) 10 none none).fst := by
  norm_num +decide [find_grid_lines_on_edges, estimate_line_likelihood,
    lineFrac, ncols, imgA, listMax, List.range_succ, max_def,
    selected_lines, sortByKeyDesc, stableInsertDesc, refine_lines,
    refineStart, refineAux, groupMean, List.insertionSort,
    List.orderedInsert, List.sorted_cons]

/-- Claim C4, failing evaluation: with default arguments and no cap, the
vertical result on `imgA` still holds both candidate columns `0` and `5`,
which are within the minimum distance 10 of each other — the merge step
was computed (`refine_lines` would give `[2]`) but its result is not the
one returned. -/
theorem claim_C4_failing_default_unmerged :
    (find_grid_lines_on_edges imgA (3 / 5) 10 none none).fst = [5, 0] ∧
    0 ∈ (find_grid_lines_on_edges imgA (3 / 5) 10 none none).fst ∧
    5 ∈ (find_grid_lines_on_edges imgA (3 / 5) 10 none none).fst ∧
    5 - 0 ≤ 10 ∧
    vertical_refined_of imgA (3 / 5) 10 = [2] := by
  norm_num +decide [find_grid_lines_on_edges, estimate_line_likelihood,
    lineFrac, ncols, imgA, listMax, List.range_succ, max_def,
    selected_lines, sortByKeyDesc, stableInsertDesc, refine_lines,
    refineStart, refineAux, groupMean, List.insertionSort,
    List.orderedInsert, vertical_refined_of]

/-- Claim C6, failing evaluation: on `imgA`, a requested column cap of 5
exceeds the number of detected lines (two candidates, one refined line),
yet the result with the cap (`[2]`, the refined list) differs from the
result without any cap (`[5, 0]`, the unrefined likelihood-ordered
list) — the large cap is not a no-op. -/
theorem claim_C6_failing_large_cap_not_noop :
    (find_grid_lines_on_edges imgA (3 / 5) 10 (some 5) none).fst = [2] ∧
    (find_grid_lines_on_edges imgA (3 / 5) 10 none none).fst = [5, 0] ∧
    (find_grid_lines_on_edges imgA (3 / 5) 10 (some 5) none).fst ≠
      (find_grid_lines_on_edges imgA (3 / 5) 10 none none).fst := by
  norm_num +decide [find_grid_lines_on_edges, estimate_line_likelihood,
    lineFrac, ncols, imgA, listMax, List.range_succ, max_def,
    selected_lines, sortByKeyDesc, stableInsertDesc, refine_lines,
    refineStart, refineAux, groupMean, List.insertionSort,
    List.orderedInsert]

set_option maxRecDepth 8000 in
/-- Claim C5, counterexample: on `imgB` with a column cap of 1, the
detected refined lines are `0` and `15`, the likelihood of column `15`
exceeds that of column `0`, yet the function returns `[0]` — the
lower-likelihood, smaller-coordinate line — so the cap does not keep the
highest-likelihood lines. -/
theorem claim_C5_counterexample :
    (find_grid_lines_on_edges imgB (3 / 5) 10 (some 1) none).fst = [0] ∧
    vertical_refined_of imgB (3 / 5) 10 = [0, 15] ∧
    (estimate_line_likelihood imgB Axis.x).getD 0 0 <
      (estimate_line_likelihood imgB Axis.x).getD 15 0 := by
  norm_num +decide [find_grid_lines_on_edges, estimate_line_likelihood,
    lineFrac, ncols, imgB, listMax, List.range_succ, max_def,
    selected_lines, sortByKeyDesc, stableInsertDesc, refine_lines,
    refineStart, refineAux, groupMean, List.insertionSort,
    List.orderedInsert, vertical_refined_of, List.getD_cons_succ,
    List.getD_cons_zero]

/-- Claim C5, amended: when caps are given and the number of refined
lines exceeds the cap, `find_grid_lines_on_image` returns the first
`max_columns` (resp. `max_rows`) refined lines in ascending coordinate
order — the smallest-coordinate refined lines, irrespective of their
likelihood scores. -/
theorem claim_C5_amended_cap_takes_first_refined
    (edges : List (List ℕ)) (c : ℚ) (d k k' : ℕ)
    (hk : k < (vertical_refined_of edges c d).length)
    (hk' : k' < (horizontal_refined_of edges c d).length) :
    (find_grid_lines_on_edges edges c d (some k) (some k')).fst =
      (vertical_refined_of edges c d).take k ∧
    ((find_grid_lines_on_edges edges c d (some k) (some k')).fst).length
      = k ∧
    List.Chain' (fun a b => a < b)
      (find_grid_lines_on_edges edges c d (some k) (some k')).fst ∧
    (find_grid_lines_on_edges edges c d (some k) (some k')).snd =
      (horizontal_refined_of edges c d).take k' ∧
    ((find_grid_lines_on_edges edges c d (some k) (some k')).snd).length
      = k' ∧
    List.Chain' (fun a b => a < b)
      (find_grid_lines_on_edges edges c d (some k) (some k')).snd := by
  haveI : IsTrans ℕ (fun a b => a < b) := ⟨fun a b c h1 h2 => by omega⟩
  have h1 : (find_grid_lines_on_edges edges c d (some k) (some k')).fst =
      (vertical_refined_of edges c d).take k := rfl
  have h2 : (find_grid_lines_on_edges edges c d (some k) (some k')).snd =
      (horizontal_refined_of edges c d).take k' := rfl
  have hpv : List.Pairwise (fun a b => a < b)
      (vertical_refined_of edges c d) :=
    (refine_lines_pairwise _ d).imp fun h => by omega
  have hph : List.Pairwise (fun a b => a < b)
      (horizontal_refined_of edges c d) :=
    (refine_lines_pairwise _ d).imp fun h => by omega
  refine ⟨h1, ?_, ?_, h2, ?_, ?_⟩
  · rw [h1, List.length_take]
    omega
  · rw [h1]
    exact List.chain'_iff_pairwise.mpr
      (List.Pairwise.sublist (List.take_sublist k _) hpv)
  · rw [h2, List.length_take]
    omega
  · rw [h2]
    exact List.chain'_iff_pairwise.mpr
      (List.Pairwise.sublist (List.take_sublist k' _) hph)

set_option maxRecDepth 8000 in
/-- Witness for the amended C5 on `imgB` with caps 1 and 0: the refined
lists are `[0, 15]` and `[1]`, and the returned lists are `[0]` and
`[]`. -/
theorem claim_C5_amended_witness :
    (find_grid_lines_on_edges imgB (3 / 5) 10 (some 1) (some 0)).fst =
      (vertical_refined_of imgB (3 / 5) 10).take 1 ∧
    ((find_grid_lines_on_edges imgB (3 / 5) 10 (some 1)
      (some 0)).fst).length = 1 ∧
    List.Chain' (fun a b => a < b)
      (find_grid_lines_on_edges imgB (3 / 5) 10 (some 1) (some 0)).fst ∧
    (find_grid_lines_on_edges imgB (3 / 5) 10 (some 1) (some 0)).snd =
      (horizontal_refined_of imgB (3 / 5) 10).take 0 ∧
    ((find_grid_lines_on_edges imgB (3 / 5) 10 (some 1)
      (some 0)).snd).length = 0 ∧
    List.Chain' (fun a b => a < b)
      (find_grid_lines_on_edges imgB (3 / 5) 10 (some 1) (some 0)).snd :=
  claim_C5_amended_cap_takes_first_refined imgB (3 / 5) 10 1 0
    (by norm_num +decide [vertical_refined_of, estimate_line_likelihood,
      lineFrac, ncols, imgB, listMax, List.range_succ, max_def,
      selected_lines, refine_lines, refineStart, refineAux, groupMean,
      List.insertionSort, List.orderedInsert])
    (by norm_num +decide [horizontal_refined_of, estimate_line_likelihood,
      lineFrac, ncols, imgB, listMax, List.range_succ, max_def,
      selected_lines, refine_lines, refineStart, refineAux, groupMean,
      List.insertionSort, List.orderedInsert])

/-! ### `process_pdf`: per-page failures are skipped -/

/-- The `full_text` accumulator collects exactly the successful page
texts, in order, after any prior contents. -/
theorem pdfStep_foldl (tail : List (Except String String)) :
    ∀ acc : List String,
      tail.foldl pdfStep acc =
        acc ++ tail.filterMap Except.toOption := by
  induction tail with
  | nil =>
      intro acc
      simp
  | cons p t ih =>
      intro acc
      cases p with
      | ok s =>
          simp [pdfStep, ih, Except.toOption, List.filterMap_cons]
      | error e =>
          simp [pdfStep, ih, Except.toOption, List.filterMap_cons]

/-- Claim C9: in `process_pdf`, a page whose OCR raises contributes no
text while processing continues, every succeeding successful page's text
is still included, and the returned string is the `"\n\n"`-join of the
texts of exactly the pages whose OCR succeeded, in page order. -/
theorem claim_C9_process_pdf_skips_failures
    (pages : List (Except String String)) :
    process_pdf pages =
      String.intercalate pageSep (pages.filterMap Except.toOption) := by
  rw [process_pdf, pdfStep_foldl pages []]
  simp
